import Mathlib

/-!
Shallow embedding of `src/charm-slurmctld/src/interface_slurmd.py`.

The file models the two components of that module:

* the inventory aggregation pipeline (`Slurmd.get_slurmd_info` and the
  module-level function `ensure_unique_partitions`), and
* the relation handshake handlers (`Slurmd._on_relation_created`,
  `Slurmd._on_relation_changed` — also observed for `relation_departed` —
  and `Slurmd._on_relation_broken`).

Python dicts are embedded as insertion-ordered association lists with the
assignment operation `dictSet` (replace in place when the key is present,
append otherwise), which is exactly the observable behaviour of CPython
dict assignment together with iteration in insertion order.
-/

set_option autoImplicit false

namespace InterfaceSlurmd

/-- One parsed compute-node inventory record: the JSON object a slurmd unit
publishes under its unit-scoped `inventory` key.  The code inspects only the
`node_name` field; every other field is kept opaque in `payload`. -/
structure Node where
  node_name : String
  payload : String
deriving DecidableEq, Repr

/-- One partition record as built by `get_slurmd_info`: the parsed
`partition_info` JSON object (opaque except for the `inventory` field the
code installs into it) together with its inventory list. -/
structure Partition where
  meta : String
  inventory : List Node
deriving DecidableEq, Repr

/-- Python dict assignment `d[k] = v` on an insertion-ordered association
list: if the key is present, its (first, and for a dict only) entry is
replaced in place, keeping its position; otherwise the pair is appended at
the end. -/
def dictSet {β : Type} : List (String × β) → String → β → List (String × β)
  | [], k, v => [(k, v)]
  | p :: rest, k, v =>
    if p.1 == k then (k, v) :: rest else p :: dictSet rest k v

/-- Python dict lookup `d[k]` (first — and, for dicts, only — entry whose
key matches), returning `none` when the key is absent. -/
def lookupKey {β : Type} (m : List (String × β)) (k : String) : Option β :=
  match m with
  | [] => none
  | p :: rest => if p.1 == k then some p.2 else lookupKey rest k

/-- Python `list.remove(x)`: delete the first occurrence of `x`.  (CPython
raises `ValueError` when `x` is absent; inside `ensure_unique_partitions`
the removed element is always present — see `ensure_foldl` — so the
total function below agrees with the source on every reachable call.) -/
def listRemove {α : Type} [DecidableEq α] : List α → α → List α
  | [], _ => []
  | a :: as, b => if a = b then as else a :: listRemove as b

/-- The dict built by the comprehension
`{node["node_name"]: node for node in inventory}`: a left fold of dict
assignments keyed by `node_name`, starting from the empty dict. -/
def dictOfNodes (inventory : List Node) : List (String × Node) :=
  inventory.foldl (fun m node => dictSet m node.node_name node) []

/-- `list({node["node_name"]: node for node in inventory}.values())`:
the values of the `node_name`-keyed dict, in insertion order. -/
def uniqueInventory (inventory : List Node) : List Node :=
  (dictOfNodes inventory).map Prod.snd

/-- The per-partition body of the `ensure_unique_partitions` loop: a deep
copy of the partition whose `inventory` is replaced by the deduplicated
inventory. -/
def dedupPartition (p : Partition) : Partition :=
  { p with inventory := uniqueInventory p.inventory }

/-- `ensure_unique_partitions` from the source: iterate over a copy
(`partitions_tmp`; `copy.deepcopy` is the identity under value semantics),
and for each partition of the copy, remove its first occurrence from the
working list and append the partition with deduplicated inventory. -/
def ensure_unique_partitions (partitions : List Partition) : List Partition :=
  List.foldl
    (fun acc partition => listRemove acc partition ++ [dedupPartition partition])
    partitions partitions

/-- The last record in an inventory list carrying the given `node_name` —
the record that last-write-wins deduplication keeps. -/
def lastByName : List Node → String → Option Node
  | [], _ => none
  | n :: rest, k =>
    match lastByName rest k with
    | some x => some x
    | none => if n.node_name == k then some n else none

/-- A serialized relation-data string, modelled by the only two attributes
the code observes: Python truthiness and the outcome of `json.loads`.
`parses a` is a non-empty string that decodes to `a`; `garbage` is a
non-empty string on which `json.loads` raises; `empty` is the empty string
(falsy, and `json.loads("")` also raises). -/
inductive Wire (α : Type) where
  | parses (a : α) : Wire α
  | garbage : Wire α
  | empty : Wire α
deriving DecidableEq, Repr

/-- Python truthiness of the underlying string: only the empty string is
falsy. -/
def Wire.truthy {α : Type} : Wire α → Bool
  | .empty => false
  | _ => true

/-- The exceptions the aggregation query can raise: `KeyError` from the
subscript `relation.data[app]["partition_info"]`, and `JSONDecodeError`
from `json.loads`. -/
inductive AggError where
  | keyError (key : String)
  | parseError
deriving DecidableEq, Repr

/-- `json.loads` applied to a serialized string: succeeds exactly on
strings that decode; raises `JSONDecodeError` on garbage and on the empty
string. -/
def jsonLoads {α : Type} : Wire α → Except AggError α
  | .parses a => .ok a
  | .garbage => .error .parseError
  | .empty => .error .parseError

/-- The unit-scoped relation data of one slurmd unit, restricted to the one
key the code reads: `inventory` (`none` models an absent key). -/
structure SlurmdUnitData where
  inventory : Option (Wire Node)
deriving DecidableEq, Repr

/-- One relation on the `slurmd` endpoint: the peer application's
app-scoped data restricted to the one key the code reads
(`partition_info`; `none` models an absent key), and the unit-scoped data
of the relation's units in iteration order. -/
structure SlurmdRelation where
  partition_info : Option (Wire String)
  units : List SlurmdUnitData
deriving DecidableEq, Repr

/-- The unit loop of `get_slurmd_info`: `inv = relation.data[unit].get("inventory")`,
then `if inv: inventory.append(json.loads(inv))` — absent or falsy (empty)
values are skipped, truthy values are parsed, and a parse failure aborts
the whole query. -/
def collectInventory : List SlurmdUnitData → Except AggError (List Node)
  | [] => .ok []
  | u :: us =>
    match u.inventory with
    | none => collectInventory us
    | some w =>
      if w.truthy then
        match jsonLoads w with
        | .error e => .error e
        | .ok node =>
          match collectInventory us with
          | .error e => .error e
          | .ok rest => .ok (node :: rest)
      else
        collectInventory us

/-- The relation loop of `get_slurmd_info`: for each relation, subscript the
peer app data at `partition_info` (a `KeyError` when absent), `json.loads`
it, collect the units' inventories, and append the partition record with
its inventory attached. -/
def assemblePartitions : List SlurmdRelation → Except AggError (List Partition)
  | [] => .ok []
  | r :: rs =>
    match r.partition_info with
    | none => .error (.keyError "partition_info")
    | some w =>
      match jsonLoads w with
      | .error e => .error e
      | .ok meta =>
        match collectInventory r.units with
        | .error e => .error e
        | .ok inv =>
          match assemblePartitions rs with
          | .error e => .error e
          | .ok rest => .ok ({ meta := meta, inventory := inv } :: rest)

/-- `Slurmd.get_slurmd_info` (the `GetPartitions` query): assemble one
partition per relation, then pass the list through
`ensure_unique_partitions`. -/
def get_slurmd_info (relations : List SlurmdRelation) :
    Except AggError (List Partition) :=
  match assemblePartitions relations with
  | .error e => .error e
  | .ok ps => .ok (ensure_unique_partitions ps)

/-- The slice of the slurmctld charm that the handshake handlers consult
(the ControllerFacade): installation status, truthiness of
`slurmdbd_info`, the munge key, hostname and port, and the availability
flag written through `set_slurmd_available`. -/
structure Charm where
  is_slurm_installed : Bool
  slurmdbd_info : Bool
  munge_key : String
  hostname : String
  port : String
  slurmd_available : Bool
deriving DecidableEq, Repr

/-- The per-relation key-value stores a handler touches:
`event.relation.data[self.model.app]` (controller side, app scope) and
`event.relation.data[event.app]` (peer side, app scope). -/
structure RelationData where
  ctldAppData : List (String × String)
  peerAppData : List (String × String)
deriving DecidableEq, Repr

/-- The state a handshake transition can read or write: the charm facade
and the relation data. -/
structure MachineState where
  charm : Charm
  rel : RelationData
deriving DecidableEq, Repr

/-- The two outward notifications of `SlurmdInventoryEvents`. -/
inductive Notice where
  | slurmd_available
  | slurmd_unavailable
deriving DecidableEq, Repr

/-- The outcome of one handler run: the state afterwards, whether
`event.defer()` was called, and the notifications emitted, in order. -/
structure StepResult where
  state : MachineState
  deferred : Bool
  emitted : List Notice
deriving DecidableEq, Repr

/-- `Slurmd._on_relation_created`: defer unless slurm is installed, then
defer unless `slurmdbd_info` is truthy; otherwise write `munge_key`,
`slurmctld_host` and `slurmctld_port` into the controller's app-scoped
relation data.  The handler never consults leadership — the `_leader`
parameter records the ambient leadership of the executing unit and is
(faithfully to the source) unused. -/
def on_relation_created (_leader : Bool) (s : MachineState) : StepResult :=
  if !s.charm.is_slurm_installed then
    { state := s, deferred := true, emitted := [] }
  else if !s.charm.slurmdbd_info then
    { state := s, deferred := true, emitted := [] }
  else
    let d1 := dictSet s.rel.ctldAppData "munge_key" s.charm.munge_key
    let d2 := dictSet d1 "slurmctld_host" s.charm.hostname
    let d3 := dictSet d2 "slurmctld_port" s.charm.port
    { state := { s with rel := { s.rel with ctldAppData := d3 } },
      deferred := false, emitted := [] }

/-- Python truthiness of `dict.get("partition_info")`: falsy when the key
is absent (`None`) or maps to the empty string. -/
def truthyStr : Option String → Bool
  | none => false
  | some v => !(v == "")

/-- `Slurmd._on_relation_changed` (observed for both `relation_changed`
and `relation_departed`): if the peer app data's `partition_info` is
truthy, set the availability flag and emit `slurmd_available`; otherwise
defer. -/
def on_relation_changed (s : MachineState) : StepResult :=
  if truthyStr (lookupKey s.rel.peerAppData "partition_info") then
    { state := { s with charm := { s.charm with slurmd_available := true } },
      deferred := false, emitted := [.slurmd_available] }
  else
    { state := s, deferred := true, emitted := [] }

/-- `Slurmd._on_relation_broken`: if the unit is the leader, overwrite
`munge_key` with the empty string; then unconditionally clear the
availability flag and emit `slurmd_unavailable`. -/
def on_relation_broken (leader : Bool) (s : MachineState) : StepResult :=
  let d := if leader then dictSet s.rel.ctldAppData "munge_key" ""
           else s.rel.ctldAppData
  { state := { s with
      charm := { s.charm with slurmd_available := false },
      rel := { s.rel with ctldAppData := d } },
    deferred := false, emitted := [.slurmd_unavailable] }

/-- A controller facade with both preconditions satisfied, used by the
concrete instantiations below. -/
def charmReady : Charm :=
  { is_slurm_installed := true, slurmdbd_info := true, munge_key := "m-key-1",
    hostname := "ctld-0", port := "6817", slurmd_available := false }

/-- A machine state with empty relation data and both preconditions true. -/
def stateReady : MachineState :=
  { charm := charmReady, rel := { ctldAppData := [], peerAppData := [] } }

/-- A machine state in which slurm is not yet installed. -/
def stateNotInstalled : MachineState :=
  { charm := { charmReady with is_slurm_installed := false },
    rel := { ctldAppData := [], peerAppData := [] } }

/-- A machine state whose controller app data already holds an unrelated
key, to exercise the frame condition of the peer-joined write. -/
def stateWithOldKey : MachineState :=
  { charm := charmReady,
    rel := { ctldAppData := [("unrelated", "x")], peerAppData := [] } }

/-- A machine state whose peer app data carries a non-empty
`partition_info`. -/
def stateWithPartitionInfo : MachineState :=
  { charm := charmReady,
    rel := { ctldAppData := [], peerAppData := [("partition_info", "pdata")] } }

/-- Inventory records: two sharing `node_name` `n1`, one with `n2`. -/
def nodeA1 : Node := { node_name := "n1", payload := "a" }

/-- Second record with `node_name` `n1` (the later duplicate). -/
def nodeA2 : Node := { node_name := "n1", payload := "b" }

/-- A record with `node_name` `n2`. -/
def nodeB : Node := { node_name := "n2", payload := "c" }

/-- A one-partition list whose inventory holds a duplicated `node_name`. -/
def psDup : List Partition :=
  [{ meta := "compute", inventory := [nodeA1, nodeB, nodeA2] }]

/-- A relation whose `partition_info` is present but unparsable. -/
def relationGarbage : SlurmdRelation :=
  { partition_info := some Wire.garbage, units := [] }

/-- A relation whose app data lacks the `partition_info` key. -/
def relationMissingKey : SlurmdRelation :=
  { partition_info := none, units := [] }

/-- A unit whose `inventory` value is the empty string. -/
def unitEmptyInv : SlurmdUnitData := { inventory := some Wire.empty }

section DictLemmas

theorem lookupKey_dictSet_self {β : Type} (m : List (String × β)) (k : String)
    (v : β) : lookupKey (dictSet m k v) k = some v := by
  induction m with
  | nil => simp [dictSet, lookupKey]
  | cons p rest ih =>
    by_cases hp : p.1 = k
    · simp [dictSet, lookupKey, hp]
    · simp [dictSet, lookupKey, hp, ih]

theorem lookupKey_dictSet_ne {β : Type} (m : List (String × β)) (k q : String)
    (v : β) (h : q ≠ k) : lookupKey (dictSet m k v) q = lookupKey m q := by
  induction m with
  | nil => simp [dictSet, lookupKey, Ne.symm h]
  | cons p rest ih =>
    by_cases hp : p.1 = k
    · simp [dictSet, lookupKey, hp, Ne.symm h]
    · simp [dictSet, lookupKey, hp, ih]

theorem dictSet_append_of_fresh {β : Type} (m : List (String × β)) (k : String)
    (v : β) (h : k ∉ m.map Prod.fst) : dictSet m k v = m ++ [(k, v)] := by
  induction m with
  | nil => simp [dictSet]
  | cons p rest ih =>
    simp only [List.map_cons, List.mem_cons] at h
    push_neg at h
    simp [dictSet, Ne.symm h.1, ih h.2]

theorem mem_dictSet {β : Type} (m : List (String × β)) (k : String) (v : β)
    (q : String × β) (hq : q ∈ dictSet m k v) : q ∈ m ∨ q = (k, v) := by
  induction m with
  | nil => simp [dictSet] at hq; right; exact hq
  | cons p rest ih =>
    by_cases hp : p.1 = k
    · simp only [dictSet, hp, if_pos, beq_self_eq_true] at hq
      rcases List.mem_cons.mp hq with h | h
      · right; exact h
      · left; exact List.mem_cons_of_mem p h
    · simp only [dictSet] at hq
      rw [if_neg (by simp [hp])] at hq
      rcases List.mem_cons.mp hq with h | h
      · left; exact h ▸ List.mem_cons_self p rest
      · rcases ih h with h' | h'
        · left; exact List.mem_cons_of_mem p h'
        · right; exact h'

theorem nodup_keys_dictSet {β : Type} (m : List (String × β)) (k : String)
    (v : β) (h : (m.map Prod.fst).Nodup) :
    ((dictSet m k v).map Prod.fst).Nodup := by
  induction m with
  | nil => simp [dictSet]
  | cons p rest ih =>
    rw [List.map_cons, List.nodup_cons] at h
    by_cases hp : p.1 = k
    · simp only [dictSet, hp, beq_self_eq_true, if_pos, List.map_cons,
        List.nodup_cons]
      exact ⟨hp ▸ h.1, h.2⟩
    · simp only [dictSet]
      rw [if_neg (by simp [hp])]
      rw [List.map_cons, List.nodup_cons]
      refine ⟨?_, ih h.2⟩
      intro hmem
      rcases List.mem_map.mp hmem with ⟨q, hqmem, hq1⟩
      rcases mem_dictSet rest k v q hqmem with h' | h'
      · exact h.1 (hq1 ▸ List.mem_map_of_mem Prod.fst h')
      · exact hp (by rw [← hq1, h'])

theorem lookupKey_of_mem {β : Type} (m : List (String × β)) (k : String)
    (v : β) (hnd : (m.map Prod.fst).Nodup) (hmem : (k, v) ∈ m) :
    lookupKey m k = some v := by
  induction m with
  | nil => simp at hmem
  | cons p rest ih =>
    rw [List.map_cons, List.nodup_cons] at hnd
    rcases List.mem_cons.mp hmem with h | h
    · rw [← h]; simp [lookupKey]
    · have hk : p.1 ≠ k := by
        intro he
        exact hnd.1 (by rw [he]; exact List.mem_map_of_mem Prod.fst h)
      simp [lookupKey, hk, ih hnd.2 h]

end DictLemmas

section DedupLemmas

theorem foldl_dictSet_lookup (inv : List Node) (m : List (String × Node))
    (k : String) :
    lookupKey (inv.foldl (fun m node => dictSet m node.node_name node) m) k =
      match lastByName inv k with
      | some x => some x
      | none => lookupKey m k := by
  induction inv generalizing m with
  | nil => simp [lastByName]
  | cons n rest ih =>
    rw [List.foldl_cons, ih]
    by_cases hk : n.node_name = k
    · cases hl : lastByName rest k with
      | some x => simp [lastByName, hl]
      | none =>
        subst hk
        simp [lastByName, hl, lookupKey_dictSet_self]
    · cases hl : lastByName rest k with
      | some x => simp [lastByName, hl]
      | none =>
        simp [lastByName, hl, hk,
          lookupKey_dictSet_ne m n.node_name k n (Ne.symm hk)]

theorem foldl_dictSet_entry (inv : List Node) (m : List (String × Node))
    (hm : ∀ q ∈ m, q.2.node_name = q.1) :
    ∀ q ∈ inv.foldl (fun m node => dictSet m node.node_name node) m,
      q.2.node_name = q.1 := by
  induction inv generalizing m with
  | nil => simpa using hm
  | cons n rest ih =>
    rw [List.foldl_cons]
    apply ih
    intro q hq
    rcases mem_dictSet m n.node_name n q hq with h | h
    · exact hm q h
    · rw [h]

theorem foldl_dictSet_nodup (inv : List Node) (m : List (String × Node))
    (hm : (m.map Prod.fst).Nodup) :
    ((inv.foldl (fun m node => dictSet m node.node_name node) m).map
      Prod.fst).Nodup := by
  induction inv generalizing m with
  | nil => simpa using hm
  | cons n rest ih =>
    rw [List.foldl_cons]
    exact ih _ (nodup_keys_dictSet m n.node_name n hm)

theorem uniqueInventory_names_nodup (inv : List Node) :
    ((uniqueInventory inv).map Node.node_name).Nodup := by
  have he := foldl_dictSet_entry inv [] (by simp)
  have hn : ((dictOfNodes inv).map Prod.fst).Nodup :=
    foldl_dictSet_nodup inv [] (by simp)
  have hmap : ((dictOfNodes inv).map Prod.snd).map Node.node_name
      = (dictOfNodes inv).map Prod.fst := by
    rw [List.map_map]
    exact List.map_congr_left he
  rw [uniqueInventory, hmap]
  exact hn

theorem uniqueInventory_last_wins (inv : List Node) (n : Node)
    (hn : n ∈ uniqueInventory inv) : lastByName inv n.node_name = some n := by
  rcases List.mem_map.mp hn with ⟨q, hq, hq2⟩
  have he := foldl_dictSet_entry inv [] (by simp) q hq
  have hnd : ((dictOfNodes inv).map Prod.fst).Nodup :=
    foldl_dictSet_nodup inv [] (by simp)
  have hlook : lookupKey (dictOfNodes inv) q.1 = some q.2 :=
    lookupKey_of_mem _ _ _ hnd hq
  have hfold : lookupKey (dictOfNodes inv) q.1 =
      match lastByName inv q.1 with
      | some x => some x
      | none => lookupKey ([] : List (String × Node)) q.1 :=
    foldl_dictSet_lookup inv [] q.1
  have hname : n.node_name = q.1 := by rw [← hq2]; exact he
  cases hl : lastByName inv q.1 with
  | none =>
    rw [hl, hlook] at hfold
    simp [lookupKey] at hfold
  | some x =>
    rw [hl, hlook] at hfold
    have hx : q.2 = x := by simpa using hfold
    rw [hname, hl, ← hx, hq2]

theorem foldl_dictSet_fresh (l : List Node) :
    ∀ m : List (String × Node),
      (∀ n ∈ l, n.node_name ∉ m.map Prod.fst) →
      (l.map Node.node_name).Nodup →
      l.foldl (fun m node => dictSet m node.node_name node) m
        = m ++ l.map (fun n => (n.node_name, n)) := by
  induction l with
  | nil => intro m _ _; simp
  | cons n rest ih =>
    intro m hfresh hnd
    rw [List.map_cons, List.nodup_cons] at hnd
    have hset : dictSet m n.node_name n = m ++ [(n.node_name, n)] :=
      dictSet_append_of_fresh m n.node_name n
        (hfresh n (List.mem_cons_self n rest))
    rw [List.foldl_cons, hset,
      ih (m ++ [(n.node_name, n)]) ?_ hnd.2]
    · simp
    · intro x hx
      rw [List.map_append, List.mem_append]
      push_neg
      refine ⟨hfresh x (List.mem_cons_of_mem n hx), ?_⟩
      simp only [List.map_cons, List.map_nil, List.mem_singleton]
      intro he
      exact hnd.1 (he ▸ List.mem_map_of_mem Node.node_name hx)

theorem uniqueInventory_of_nodup (l : List Node)
    (h : (l.map Node.node_name).Nodup) : uniqueInventory l = l := by
  have hd : dictOfNodes l = l.map (fun n => (n.node_name, n)) := by
    have := foldl_dictSet_fresh l [] (by simp) h
    simpa [dictOfNodes] using this
  rw [uniqueInventory, hd, List.map_map]
  exact List.map_id l

theorem uniqueInventory_idem (inv : List Node) :
    uniqueInventory (uniqueInventory inv) = uniqueInventory inv :=
  uniqueInventory_of_nodup _ (uniqueInventory_names_nodup inv)

theorem dedupPartition_idem (p : Partition) :
    dedupPartition (dedupPartition p) = dedupPartition p := by
  simp [dedupPartition, uniqueInventory_idem]

theorem listRemove_cons_head {α : Type} [DecidableEq α] (a : α) (l : List α) :
    listRemove (a :: l) a = l := by
  simp [listRemove]

theorem ensure_foldl (l : List Partition) :
    ∀ acc : List Partition,
      List.foldl (fun a p => listRemove a p ++ [dedupPartition p]) (l ++ acc) l
        = acc ++ l.map dedupPartition := by
  induction l with
  | nil => intro acc; simp
  | cons p rest ih =>
    intro acc
    rw [List.foldl_cons]
    have h1 : listRemove ((p :: rest) ++ acc) p ++ [dedupPartition p]
        = rest ++ (acc ++ [dedupPartition p]) := by
      rw [List.cons_append, listRemove_cons_head, List.append_assoc]
    rw [h1, ih (acc ++ [dedupPartition p])]
    simp

theorem ensure_eq_map (ps : List Partition) :
    ensure_unique_partitions ps = ps.map dedupPartition := by
  have h := ensure_foldl ps []
  rw [List.append_nil] at h
  simpa [ensure_unique_partitions] using h

theorem ensure_mem (ps : List Partition) (q : Partition)
    (h : q ∈ ensure_unique_partitions ps) : ∃ p ∈ ps, dedupPartition p = q := by
  rw [ensure_eq_map] at h
  rcases List.mem_map.mp h with ⟨p, hp, hpq⟩
  exact ⟨p, hp, hpq⟩

end DedupLemmas

section AggregatorLemmas

theorem collectInventory_skip (u : SlurmdUnitData) (us : List SlurmdUnitData)
    (h : u.inventory = none ∨ u.inventory = some Wire.empty) :
    collectInventory (u :: us) = collectInventory us := by
  rcases h with h | h <;> simp [collectInventory, h, Wire.truthy]

theorem collectInventory_head_error (u : SlurmdUnitData)
    (us : List SlurmdUnitData) (w : Wire Node) (hw : u.inventory = some w)
    (ht : w.truthy = true) (hj : jsonLoads w = .error .parseError) :
    collectInventory (u :: us) = .error .parseError := by
  simp [collectInventory, hw, ht, hj]

theorem collectInventory_ok_wf (us : List SlurmdUnitData) (ns : List Node)
    (h : collectInventory us = .ok ns) :
    ∀ u ∈ us, ∀ w, u.inventory = some w → w.truthy = true →
      ∃ n, jsonLoads w = Except.ok n := by
  induction us generalizing ns with
  | nil => intro u hu; simp at hu
  | cons u0 rest ih =>
    intro u hu w hw ht
    rcases List.mem_cons.mp hu with rfl | hu'
    · cases hj : jsonLoads w with
      | ok n => exact ⟨n, rfl⟩
      | error e => simp [collectInventory, hw, ht, hj] at h
    · cases hw0 : u0.inventory with
      | none =>
        rw [collectInventory_skip u0 rest (Or.inl hw0)] at h
        exact ih ns h u hu' w hw ht
      | some w0 =>
        by_cases ht0 : w0.truthy = true
        · cases hj0 : jsonLoads w0 with
          | error e => simp [collectInventory, hw0, ht0, hj0] at h
          | ok n0 =>
            cases hr : collectInventory rest with
            | error e => simp [collectInventory, hw0, ht0, hj0, hr] at h
            | ok ns2 => exact ih ns2 hr u hu' w hw ht
        · rw [show collectInventory (u0 :: rest) = collectInventory rest by
            simp [collectInventory, hw0, ht0]] at h
          exact ih ns h u hu' w hw ht

theorem assemblePartitions_ok_wf (rels : List SlurmdRelation)
    (ps : List Partition) (h : assemblePartitions rels = .ok ps) :
    ∀ r ∈ rels,
      (∃ w, r.partition_info = some w ∧ ∃ m, jsonLoads w = Except.ok m) ∧
      ∃ inv, collectInventory r.units = Except.ok inv := by
  induction rels generalizing ps with
  | nil => intro r hr; simp at hr
  | cons r0 rest ih =>
    intro r hr
    cases hpi : r0.partition_info with
    | none => simp [assemblePartitions, hpi] at h
    | some w0 =>
      cases hj0 : jsonLoads w0 with
      | error e => simp [assemblePartitions, hpi, hj0] at h
      | ok m0 =>
        cases hc0 : collectInventory r0.units with
        | error e => simp [assemblePartitions, hpi, hj0, hc0] at h
        | ok inv0 =>
          cases ha : assemblePartitions rest with
          | error e => simp [assemblePartitions, hpi, hj0, hc0, ha] at h
          | ok rest2 =>
            rcases List.mem_cons.mp hr with rfl | hr'
            · exact ⟨⟨w0, hpi, m0, hj0⟩, inv0, hc0⟩
            · exact ih rest2 ha r hr'

theorem assemblePartitions_prefix_error (pre : List SlurmdRelation)
    (tail : List SlurmdRelation) (e : AggError)
    (hps : ∃ ps1, assemblePartitions pre = .ok ps1)
    (htail : assemblePartitions tail = .error e) :
    assemblePartitions (pre ++ tail) = .error e := by
  induction pre with
  | nil => simpa using htail
  | cons r0 rest ih =>
    rcases hps with ⟨ps1, hps1⟩
    cases hpi : r0.partition_info with
    | none => simp [assemblePartitions, hpi] at hps1
    | some w0 =>
      cases hj0 : jsonLoads w0 with
      | error e0 => simp [assemblePartitions, hpi, hj0] at hps1
      | ok m0 =>
        cases hc0 : collectInventory r0.units with
        | error e0 => simp [assemblePartitions, hpi, hj0, hc0] at hps1
        | ok inv0 =>
          cases ha : assemblePartitions rest with
          | error e0 => simp [assemblePartitions, hpi, hj0, hc0, ha] at hps1
          | ok rest2 =>
            have hrec := ih ⟨rest2, ha⟩
            simp [assemblePartitions, hpi, hj0, hc0, hrec]

theorem get_slurmd_info_head_parse_error (r : SlurmdRelation)
    (rs : List SlurmdRelation) (w : Wire String) (hw : r.partition_info = some w)
    (hj : jsonLoads w = Except.error AggError.parseError) :
    get_slurmd_info (r :: rs) = .error .parseError := by
  simp [get_slurmd_info, assemblePartitions, hw, hj]

theorem get_slurmd_info_head_units_error (r : SlurmdRelation)
    (rs : List SlurmdRelation) (m : String) (e : AggError)
    (hw : r.partition_info = some (Wire.parses m))
    (hc : collectInventory r.units = .error e) :
    get_slurmd_info (r :: rs) = .error e := by
  simp [get_slurmd_info, assemblePartitions, hw, hc, jsonLoads]

theorem get_slurmd_info_error_of_assemble_not_ok (rels : List SlurmdRelation)
    (h : ∀ ps, assemblePartitions rels ≠ .ok ps) :
    ∃ e, get_slurmd_info rels = .error e := by
  cases ha : assemblePartitions rels with
  | error e => exact ⟨e, by simp [get_slurmd_info, ha]⟩
  | ok ps => exact absurd ha (h ps)

end AggregatorLemmas

section HandlerLemmas

theorem on_relation_broken_munge (leader : Bool) (s : MachineState) :
    lookupKey (on_relation_broken leader s).state.rel.ctldAppData "munge_key"
      = if leader then some ""
        else lookupKey s.rel.ctldAppData "munge_key" := by
  cases leader with
  | false => simp [on_relation_broken]
  | true => simp [on_relation_broken, lookupKey_dictSet_self]

theorem on_relation_broken_frame (leader : Bool) (s : MachineState)
    (k : String) (hk : k ≠ "munge_key") :
    lookupKey (on_relation_broken leader s).state.rel.ctldAppData k
      = lookupKey s.rel.ctldAppData k := by
  cases leader with
  | false => simp [on_relation_broken]
  | true => simp [on_relation_broken, lookupKey_dictSet_ne _ _ _ _ hk]

theorem on_relation_broken_nonleader_rel (s : MachineState) :
    (on_relation_broken false s).state.rel = s.rel := by
  simp [on_relation_broken]

theorem on_relation_changed_no_write (s : MachineState) :
    (on_relation_changed s).state.rel = s.rel := by
  rw [on_relation_changed]
  by_cases h : truthyStr (lookupKey s.rel.peerAppData "partition_info") = true
  · simp [h]
  · simp [h]

end HandlerLemmas

/-- C1: for every input list of partitions, the aggregation
(`ensure_unique_partitions`, the final step of `get_slurmd_info` /
`GetPartitions`) returns partitions in which each `node_name` occurs at
most once in any one partition's inventory, and the record kept for each
`node_name` is the last one encountered in that partition's input
inventory (overwrite semantics, not first-wins).  The second conjunct
extends the uniqueness guarantee to every partition returned by a
successful `get_slurmd_info` query. -/
theorem c1_unique_last_wins :
    (∀ (ps : List Partition) (q : Partition),
      q ∈ ensure_unique_partitions ps →
        (q.inventory.map Node.node_name).Nodup ∧
        ∃ p ∈ ps, dedupPartition p = q ∧
          ∀ n ∈ q.inventory, lastByName p.inventory n.node_name = some n) ∧
    (∀ (rels : List SlurmdRelation) (out : List Partition),
      get_slurmd_info rels = .ok out →
        ∀ q ∈ out, (q.inventory.map Node.node_name).Nodup) := by
  constructor
  · intro ps q hq
    rcases ensure_mem ps q hq with ⟨p, hp, hpq⟩
    subst hpq
    refine ⟨uniqueInventory_names_nodup p.inventory, p, hp, rfl, ?_⟩
    intro n hn
    exact uniqueInventory_last_wins p.inventory n hn
  · intro rels out hout q hq
    cases ha : assemblePartitions rels with
    | error e => simp [get_slurmd_info, ha] at hout
    | ok ps =>
      have hps : ensure_unique_partitions ps = out := by
        simpa [get_slurmd_info, ha] using hout
      rcases ensure_mem ps q (hps ▸ hq) with ⟨p, _, hpq⟩
      rw [← hpq]
      exact uniqueInventory_names_nodup p.inventory

/-- Witness for C1 at a concrete partition list whose inventory repeats
`node_name` `n1`: the later record `nodeA2` is the one kept. -/
theorem c1_witness :
    ({ meta := "compute", inventory := [nodeA2, nodeB] } : Partition)
      ∈ ensure_unique_partitions psDup ∧
    ((({ meta := "compute", inventory := [nodeA2, nodeB] } : Partition).inventory.map
        Node.node_name).Nodup ∧
      ∃ p ∈ psDup,
        dedupPartition p = { meta := "compute", inventory := [nodeA2, nodeB] } ∧
        ∀ n ∈ ({ meta := "compute", inventory := [nodeA2, nodeB] } : Partition).inventory,
          lastByName p.inventory n.node_name = some n) :=
  ⟨by decide, c1_unique_last_wins.1 psDup _ (by decide)⟩

/-- C2: the deduplication step is idempotent — applying
`ensure_unique_partitions` twice yields the same result as applying it
once, for every input list of partitions. -/
theorem c2_dedup_idempotent (ps : List Partition) :
    ensure_unique_partitions (ensure_unique_partitions ps)
      = ensure_unique_partitions ps := by
  rw [ensure_eq_map, ensure_eq_map, List.map_map]
  exact List.map_congr_left (fun p _ => dedupPartition_idem p)

/-- C3 counterexample: the claim that the shared secret field is written
only under a leadership check is false on the code — the peer-joined
handler (`_on_relation_created`) performs the `munge_key` write without
consulting leadership, so a non-leader unit whose preconditions hold
writes the secret.  Concretely, from a state with empty relation data, a
non-leader run of the handler changes `munge_key` from absent to the
charm's munge key. -/
theorem c3_counterexample :
    lookupKey stateReady.rel.ctldAppData "munge_key" = none ∧
    lookupKey (on_relation_created false stateReady).state.rel.ctldAppData
      "munge_key" = some "m-key-1" := by
  decide

/-- C3 amended: the peer-left handler mutates the shared secret only under
a leadership check (non-leaders leave the relation data untouched, leaders
overwrite `munge_key` with the empty string), but the peer-joined handler
writes the shared secret with no leadership check at all — its behaviour
is independent of the leadership of the executing unit. -/
theorem c3_leadership_amended (s : MachineState) (l l2 : Bool) :
    on_relation_created l s = on_relation_created l2 s ∧
    (on_relation_broken false s).state.rel.ctldAppData = s.rel.ctldAppData ∧
    lookupKey (on_relation_broken true s).state.rel.ctldAppData "munge_key"
      = some "" := by
  refine ⟨rfl, ?_, ?_⟩
  · simp [on_relation_broken]
  · simpa using on_relation_broken_munge true s

/-- C4: the peer-joined handler checks its preconditions in order (slurm
installed, then `slurmdbd_info` truthy); if either fails, the transition
is deferred with no relation-data writes and no emissions — the state is
returned unchanged.  In particular, `is_slurm_installed = false` alone
forces a deferral with no writes. -/
theorem c4_preconditions_defer (s : MachineState) (leader : Bool)
    (h : s.charm.is_slurm_installed = false ∨ s.charm.slurmdbd_info = false) :
    on_relation_created leader s
      = { state := s, deferred := true, emitted := [] } := by
  rcases h with h | h
  · simp [on_relation_created, h]
  · rw [on_relation_created]
    by_cases hi : s.charm.is_slurm_installed <;> simp [hi, h]

/-- Witness for C4: a concrete state with slurm not installed defers with
the state unchanged. -/
theorem c4_witness :
    (stateNotInstalled.charm.is_slurm_installed = false ∨
      stateNotInstalled.charm.slurmdbd_info = false) ∧
    on_relation_created false stateNotInstalled
      = { state := stateNotInstalled, deferred := true, emitted := [] } :=
  ⟨Or.inl rfl, c4_preconditions_defer stateNotInstalled false (Or.inl rfl)⟩

/-- C8: the deduplication step preserves the relative order of the
partitions — the output is exactly the input list mapped through
per-partition inventory deduplication, so the i-th output partition is
the i-th input partition with its inventory deduplicated. -/
theorem c8_order_preserved (ps : List Partition) :
    (ensure_unique_partitions ps).length = ps.length ∧
    ensure_unique_partitions ps = ps.map dedupPartition := by
  rw [ensure_eq_map]
  exact ⟨List.length_map ps dedupPartition, rfl⟩

/-- C5: when both preconditions hold, the peer-joined handler writes
exactly the keys `munge_key` (the shared secret), `slurmctld_host` and
`slurmctld_port` into the controller's app-scoped map — every other key
of that map, the peer's map, and the charm state are unchanged, nothing
is emitted and nothing is deferred.  The trailing conjuncts show this is
the only point these values are written: the changed/departed handler
never touches the controller app data, and the broken handler leaves
`slurmctld_host`/`slurmctld_port` untouched and only ever resets
`munge_key` to the empty string (the revocation of C7), never to a
published value. -/
theorem c5_writes_exactly_three_keys (s : MachineState) (leader : Bool)
    (h1 : s.charm.is_slurm_installed = true)
    (h2 : s.charm.slurmdbd_info = true) :
    (on_relation_created leader s).deferred = false ∧
    (on_relation_created leader s).emitted = [] ∧
    (on_relation_created leader s).state.charm = s.charm ∧
    (on_relation_created leader s).state.rel.peerAppData = s.rel.peerAppData ∧
    lookupKey (on_relation_created leader s).state.rel.ctldAppData "munge_key"
      = some s.charm.munge_key ∧
    lookupKey (on_relation_created leader s).state.rel.ctldAppData
      "slurmctld_host" = some s.charm.hostname ∧
    lookupKey (on_relation_created leader s).state.rel.ctldAppData
      "slurmctld_port" = some s.charm.port ∧
    (∀ k, k ≠ "munge_key" → k ≠ "slurmctld_host" → k ≠ "slurmctld_port" →
      lookupKey (on_relation_created leader s).state.rel.ctldAppData k
        = lookupKey s.rel.ctldAppData k) ∧
    (∀ s2 : MachineState,
      (on_relation_changed s2).state.rel.ctldAppData = s2.rel.ctldAppData) ∧
    (∀ (s3 : MachineState) (l3 : Bool),
      lookupKey (on_relation_broken l3 s3).state.rel.ctldAppData
          "slurmctld_host" = lookupKey s3.rel.ctldAppData "slurmctld_host" ∧
      lookupKey (on_relation_broken l3 s3).state.rel.ctldAppData
          "slurmctld_port" = lookupKey s3.rel.ctldAppData "slurmctld_port" ∧
      lookupKey (on_relation_broken l3 s3).state.rel.ctldAppData "munge_key"
        = if l3 then some ""
          else lookupKey s3.rel.ctldAppData "munge_key") := by
  have h3 : on_relation_created leader s =
      { state := { s with rel := { s.rel with ctldAppData := (dictSet
          (dictSet (dictSet s.rel.ctldAppData "munge_key" s.charm.munge_key)
            "slurmctld_host" s.charm.hostname)
          "slurmctld_port" s.charm.port) } },
        deferred := false, emitted := [] } := by
    simp [on_relation_created, h1, h2]
  rw [h3]
  refine ⟨rfl, rfl, rfl, rfl, ?_, ?_, ?_, ?_, ?_, ?_⟩
  · rw [lookupKey_dictSet_ne _ _ _ _ (by decide),
      lookupKey_dictSet_ne _ _ _ _ (by decide), lookupKey_dictSet_self]
  · rw [lookupKey_dictSet_ne _ _ _ _ (by decide), lookupKey_dictSet_self]
  · rw [lookupKey_dictSet_self]
  · intro k hk1 hk2 hk3
    rw [lookupKey_dictSet_ne _ _ _ _ hk3, lookupKey_dictSet_ne _ _ _ _ hk2,
      lookupKey_dictSet_ne _ _ _ _ hk1]
  · intro s2
    exact congrArg RelationData.ctldAppData (on_relation_changed_no_write s2)
  · intro s3 l3
    exact ⟨on_relation_broken_frame l3 s3 _ (by decide),
      on_relation_broken_frame l3 s3 _ (by decide),
      on_relation_broken_munge l3 s3⟩

/-- Witness for C5 at a concrete state holding one unrelated key. -/
theorem c5_witness :
    stateWithOldKey.charm.is_slurm_installed = true ∧
    stateWithOldKey.charm.slurmdbd_info = true ∧
    ((on_relation_created true stateWithOldKey).deferred = false ∧
    (on_relation_created true stateWithOldKey).emitted = [] ∧
    (on_relation_created true stateWithOldKey).state.charm
      = stateWithOldKey.charm ∧
    (on_relation_created true stateWithOldKey).state.rel.peerAppData
      = stateWithOldKey.rel.peerAppData ∧
    lookupKey (on_relation_created true stateWithOldKey).state.rel.ctldAppData
      "munge_key" = some stateWithOldKey.charm.munge_key ∧
    lookupKey (on_relation_created true stateWithOldKey).state.rel.ctldAppData
      "slurmctld_host" = some stateWithOldKey.charm.hostname ∧
    lookupKey (on_relation_created true stateWithOldKey).state.rel.ctldAppData
      "slurmctld_port" = some stateWithOldKey.charm.port ∧
    (∀ k, k ≠ "munge_key" → k ≠ "slurmctld_host" → k ≠ "slurmctld_port" →
      lookupKey (on_relation_created true stateWithOldKey).state.rel.ctldAppData
        k = lookupKey stateWithOldKey.rel.ctldAppData k) ∧
    (∀ s2 : MachineState,
      (on_relation_changed s2).state.rel.ctldAppData = s2.rel.ctldAppData) ∧
    (∀ (s3 : MachineState) (l3 : Bool),
      lookupKey (on_relation_broken l3 s3).state.rel.ctldAppData
          "slurmctld_host" = lookupKey s3.rel.ctldAppData "slurmctld_host" ∧
      lookupKey (on_relation_broken l3 s3).state.rel.ctldAppData
          "slurmctld_port" = lookupKey s3.rel.ctldAppData "slurmctld_port" ∧
      lookupKey (on_relation_broken l3 s3).state.rel.ctldAppData "munge_key"
        = if l3 then some ""
          else lookupKey s3.rel.ctldAppData "munge_key")) :=
  ⟨rfl, rfl, c5_writes_exactly_three_keys stateWithOldKey true rfl rfl⟩

/-- C6: for the changed/departed handler, a present and non-empty
`partition_info` in the peer app data makes the handler set the
availability flag, emit `slurmd_available` without deferring, and leave
the relation data untouched — so a re-delivery while the data is still
present emits `slurmd_available` again; an absent or empty
`partition_info` makes the handler defer, emit nothing and leave the
whole state (availability flag included) unchanged. -/
theorem c6_changed_available_or_defer :
    (∀ (s : MachineState) (v : String),
      lookupKey s.rel.peerAppData "partition_info" = some v → v ≠ "" →
        on_relation_changed s =
          { state :=
              { s with charm := { s.charm with slurmd_available := true } },
            deferred := false, emitted := [Notice.slurmd_available] } ∧
        (on_relation_changed (on_relation_changed s).state).emitted
          = [Notice.slurmd_available]) ∧
    (∀ s : MachineState,
      lookupKey s.rel.peerAppData "partition_info" = none ∨
        lookupKey s.rel.peerAppData "partition_info" = some "" →
        on_relation_changed s = { state := s, deferred := true, emitted := [] }) := by
  constructor
  · intro s v hv hne
    have ht : truthyStr (lookupKey s.rel.peerAppData "partition_info") = true := by
      rw [hv]; simp [truthyStr, hne]
    have hfire : on_relation_changed s =
        { state := { s with charm := { s.charm with slurmd_available := true } },
          deferred := false, emitted := [Notice.slurmd_available] } := by
      rw [on_relation_changed, if_pos ht]
    refine ⟨hfire, ?_⟩
    rw [hfire]
    rw [on_relation_changed]
    rw [if_pos ht]
  · intro s h
    have ht : truthyStr (lookupKey s.rel.peerAppData "partition_info") = false := by
      rcases h with h | h <;> rw [h] <;> simp [truthyStr]
    rw [on_relation_changed, if_neg (by simp [ht])]

/-- Witness for C6 at a concrete state whose peer data carries a
non-empty `partition_info`. -/
theorem c6_witness :
    lookupKey stateWithPartitionInfo.rel.peerAppData "partition_info"
      = some "pdata" ∧
    "pdata" ≠ "" ∧
    (on_relation_changed stateWithPartitionInfo =
      { state := { stateWithPartitionInfo with charm :=
          { stateWithPartitionInfo.charm with slurmd_available := true } },
        deferred := false, emitted := [Notice.slurmd_available] } ∧
      (on_relation_changed
        (on_relation_changed stateWithPartitionInfo).state).emitted
        = [Notice.slurmd_available]) :=
  ⟨rfl, by decide,
    c6_changed_available_or_defer.1 stateWithPartitionInfo "pdata" rfl
      (by decide)⟩

/-- C7: the peer-left handler unconditionally emits `slurmd_unavailable`
and clears the availability flag without deferring, regardless of
leadership; it overwrites `munge_key` with the empty value exactly when
the acting unit is leader — a non-leader run leaves the relation data
entirely unchanged. -/
theorem c7_broken_unavailable_leader_clear (s : MachineState) (leader : Bool) :
    (on_relation_broken leader s).emitted = [Notice.slurmd_unavailable] ∧
    (on_relation_broken leader s).deferred = false ∧
    (on_relation_broken leader s).state.charm.slurmd_available = false ∧
    lookupKey (on_relation_broken leader s).state.rel.ctldAppData "munge_key"
      = (if leader then some ""
         else lookupKey s.rel.ctldAppData "munge_key") ∧
    (on_relation_broken false s).state.rel = s.rel :=
  ⟨rfl, rfl, rfl, on_relation_broken_munge leader s,
    on_relation_broken_nonleader_rel s⟩

/-- C9: a serialized field that is present and reaches `json.loads` but is
unparsable is fatal to the whole `get_slurmd_info` query: the parse error
propagates to the caller and no partition list is returned.  Covered
cases: an unparsable `partition_info` at the head relation fails the
query with a parse error; a truthy unparsable unit `inventory` fails the
unit collection (and, through the third conjunct, the query) with that
error; and, anywhere in the relation list, an unparsable `partition_info`
or truthy unparsable `inventory` prevents the query from returning any
result.  (An empty-string `inventory` is falsy and never reaches
`json.loads`; the code, and C10, class it with missing data.) -/
theorem c9_malformed_fatal :
    (∀ (r : SlurmdRelation) (rs : List SlurmdRelation) (w : Wire String),
      r.partition_info = some w →
      jsonLoads w = Except.error AggError.parseError →
      get_slurmd_info (r :: rs) = .error .parseError) ∧
    (∀ (u : SlurmdUnitData) (us : List SlurmdUnitData) (w : Wire Node),
      u.inventory = some w → w.truthy = true →
      jsonLoads w = Except.error AggError.parseError →
      collectInventory (u :: us) = .error .parseError) ∧
    (∀ (r : SlurmdRelation) (rs : List SlurmdRelation) (m : String)
        (e : AggError),
      r.partition_info = some (Wire.parses m) →
      collectInventory r.units = .error e →
      get_slurmd_info (r :: rs) = .error e) ∧
    (∀ rels : List SlurmdRelation,
      (∃ r ∈ rels, ∃ w, r.partition_info = some w ∧
        jsonLoads w = Except.error AggError.parseError) →
      ∃ e, get_slurmd_info rels = .error e) ∧
    (∀ rels : List SlurmdRelation,
      (∃ r ∈ rels, ∃ u ∈ r.units, ∃ w, u.inventory = some w ∧
        w.truthy = true ∧ jsonLoads w = Except.error AggError.parseError) →
      ∃ e, get_slurmd_info rels = .error e) := by
  refine ⟨?_, ?_, ?_, ?_, ?_⟩
  · intro r rs w hw hj
    exact get_slurmd_info_head_parse_error r rs w hw hj
  · intro u us w hw ht hj
    exact collectInventory_head_error u us w hw ht hj
  · intro r rs m e hw hc
    exact get_slurmd_info_head_units_error r rs m e hw hc
  · intro rels hbad
    rcases hbad with ⟨r, hr, w, hw, hj⟩
    apply get_slurmd_info_error_of_assemble_not_ok
    intro ps hok
    rcases (assemblePartitions_ok_wf rels ps hok r hr).1 with ⟨w2, hw2, m, hm⟩
    rw [hw] at hw2
    cases hw2
    rw [hj] at hm
    cases hm
  · intro rels hbad
    rcases hbad with ⟨r, hr, u, hu, w, hw, ht, hj⟩
    apply get_slurmd_info_error_of_assemble_not_ok
    intro ps hok
    rcases (assemblePartitions_ok_wf rels ps hok r hr).2 with ⟨inv, hinv⟩
    rcases collectInventory_ok_wf r.units inv hinv u hu w hw ht with ⟨n, hn⟩
    rw [hj] at hn
    cases hn

/-- Witness for C9 at a one-relation list whose `partition_info` is
present but unparsable. -/
theorem c9_witness :
    relationGarbage.partition_info = some Wire.garbage ∧
    jsonLoads (Wire.garbage : Wire String)
      = Except.error AggError.parseError ∧
    get_slurmd_info (relationGarbage :: [])
      = Except.error AggError.parseError :=
  ⟨rfl, rfl, c9_malformed_fatal.1 relationGarbage [] Wire.garbage rfl rfl⟩

/-- C10: a connected relation whose app data lacks the `partition_info`
key entirely makes the query fail — with the `KeyError` for that key as
soon as the relation is reached (every relation before it having
assembled successfully) — rather than being skipped or deferred; in
contrast a peer unit whose `inventory` key is absent or empty is silently
skipped and contributes no entry to the partition's inventory. -/
theorem c10_missing_key_fails :
    (∀ rels : List SlurmdRelation,
      (∃ r ∈ rels, r.partition_info = none) →
      ∃ e, get_slurmd_info rels = .error e) ∧
    (∀ (pre post : List SlurmdRelation) (r : SlurmdRelation)
        (ps1 : List Partition),
      assemblePartitions pre = .ok ps1 → r.partition_info = none →
      get_slurmd_info (pre ++ r :: post)
        = .error (.keyError "partition_info")) ∧
    (∀ (u : SlurmdUnitData) (us : List SlurmdUnitData),
      u.inventory = none ∨ u.inventory = some Wire.empty →
      collectInventory (u :: us) = collectInventory us) := by
  refine ⟨?_, ?_, ?_⟩
  · intro rels hbad
    rcases hbad with ⟨r, hr, hnone⟩
    apply get_slurmd_info_error_of_assemble_not_ok
    intro ps hok
    rcases (assemblePartitions_ok_wf rels ps hok r hr).1 with ⟨w, hw, _⟩
    rw [hnone] at hw
    cases hw
  · intro pre post r ps1 hpre hnone
    have htail : assemblePartitions (r :: post)
        = .error (.keyError "partition_info") := by
      simp [assemblePartitions, hnone]
    have hall := assemblePartitions_prefix_error pre (r :: post)
      (.keyError "partition_info") ⟨ps1, hpre⟩ htail
    simp [get_slurmd_info, hall]
  · intro u us h
    exact collectInventory_skip u us h

/-- Witness for C10 at a one-relation list whose app data lacks
`partition_info`. -/
theorem c10_witness :
    assemblePartitions [] = Except.ok ([] : List Partition) ∧
    relationMissingKey.partition_info = none ∧
    get_slurmd_info ([] ++ relationMissingKey :: [])
      = Except.error (AggError.keyError "partition_info") :=
  ⟨rfl, rfl, c10_missing_key_fails.2.1 [] [] relationMissingKey [] rfl rfl⟩

end InterfaceSlurmd
